import Mathlib

/-!
Verification of the Golden Anvil Compendium price-catalog logic
(`compendium.py`): currency conversion, display formatting, JSON catalog
loading, folder management with filename deduplication, merge-all catalog
construction, filtering, and table sorting.

Modelling conventions:
* Python strings are `List Char`; `str.lower`/`str.strip` are modelled on
  ASCII characters (the data the program handles is ASCII item names).
* Python floats are modelled exactly: finite values as `ℚ`, plus the
  special values `inf`, `-inf` and `nan` (type `PyFloat`), with Python's
  comparison semantics (`nan` compares false against everything).
  Arithmetic on finite values is exact rational arithmetic.
* `float(str)` is modelled by `parsePyFloat`, following CPython's accepted
  grammar for ASCII inputs (optional surrounding whitespace, optional
  sign, either a decimal literal with optional fraction and exponent, or
  the words inf/infinity/nan, case-insensitively).  Digit-group
  underscores and non-ASCII digits are not modelled.
* Python's stable `list.sort` is modelled by a stable insertion sort
  (`stableSortBy`); for a total strict key order both produce the same,
  unique, stable result.
-/

section

attribute [local semireducible] Rat.mul Rat.add Rat.sub Rat.inv

/-- Python `str.isspace` characters relevant to `str.strip` (ASCII part). -/
def isPySpace (c : Char) : Bool :=
  c = ' ' || c = '\t' || c = '\n' || c = '\x0d' || c = '\x0b' || c = '\x0c'

/-- Model of Python `str.lower` (ASCII). -/
def lowerL (s : List Char) : List Char := s.map Char.toLower

/-- Model of Python `str.strip()` (remove leading and trailing whitespace). -/
def stripL (s : List Char) : List Char :=
  ((s.dropWhile isPySpace).reverse.dropWhile isPySpace).reverse

/-- Whether `pat` is a leading segment of `s` (used to model `in` and
`str.endswith`). -/
def leadsL : List Char → List Char → Bool
  | [], _ => true
  | _ :: _, [] => false
  | a :: as, b :: bs => a = b && leadsL as bs

/-- Model of Python `pat in s` for strings (contiguous substring test). -/
def containsSub : List Char → List Char → Bool
  | pat, [] => pat.isEmpty
  | pat, c :: rest => leadsL pat (c :: rest) || containsSub pat rest

/-- Model of Python `s.endswith(pat)`. -/
def endsWithL (s pat : List Char) : Bool := leadsL pat.reverse s.reverse

/-- Strict lexicographic order on strings by code point, as used by
Python `sorted` on `str`. -/
def lexLt : List Char → List Char → Bool
  | [], [] => false
  | [], _ :: _ => true
  | _ :: _, [] => false
  | a :: as, b :: bs => if a < b then true else if b < a then false else lexLt as bs

/-- Decimal digit character for `n < 10` (as in Python number rendering). -/
def digitCh (n : Nat) : Char := Char.ofNat (48 + n)

/-- Fuel-driven digit accumulator for `natDigits` (structural recursion so
that the kernel can evaluate it; `fuel ≥ n` suffices). -/
def natDigitsGo : Nat → Nat → List Char → List Char
  | 0, _, acc => acc
  | fuel + 1, n, acc =>
    if n = 0 then acc else natDigitsGo fuel (n / 10) (digitCh (n % 10) :: acc)

/-- Decimal rendering of a natural number, as Python `str(n)`. -/
def natDigits (n : Nat) : List Char :=
  if n = 0 then ['0'] else natDigitsGo n n []

/-- Decimal rendering of an integer, as Python `str(i)`. -/
def intDigits (i : Int) : List Char :=
  if i < 0 then '-' :: natDigits i.natAbs else natDigits i.toNat

-- ---------- Currency conversions (compendium.py lines 39-54) ----------

/-- The five denominations of `UNITS` / `UNIT_TO_GP`. -/
inductive CUnit | pp | gp | ep | sp | cp
deriving DecidableEq

/-- The rate table `UNIT_TO_GP`. -/
def UNIT_TO_GP : CUnit → ℚ
  | .pp => 10
  | .gp => 1
  | .ep => 1/2
  | .sp => 1/10
  | .cp => 1/100

/-- Model of `to_gp(amount, unit) = float(amount) * UNIT_TO_GP[unit]`. -/
def to_gp (amount : ℚ) (unit : CUnit) : ℚ := amount * UNIT_TO_GP unit

/-- Model of `from_gp(gp_value)[u] = gp_value / UNIT_TO_GP[u]` (the returned
dict, viewed as a function of the denomination). -/
def from_gp (gp_value : ℚ) (u : CUnit) : ℚ := gp_value / UNIT_TO_GP u

-- ---------- pretty (compendium.py lines 57-60) ----------

/-- Python `round` to an integer: round half to even (banker's rounding). -/
def roundHE (q : ℚ) : ℤ :=
  let f := ⌊q⌋
  let r := q - f
  if r < 1/2 then f
  else if 1/2 < r then f + 1
  else if f % 2 = 0 then f else f + 1

/-- Two-decimal rendering of `k < 100`. -/
def twoDigits (k : Nat) : List Char := [digitCh (k / 10), digitCh (k % 10)]

/-- Model of the f-string `f"{n:.2f}"`: round to two decimals, half to
even, with a leading minus sign for negative inputs. -/
def fmt2 (n : ℚ) : List Char :=
  let m := (roundHE (|n| * 100)).toNat
  (if n < 0 then ['-'] else []) ++ natDigits (m / 100) ++ '.' :: twoDigits (m % 100)

/-- Model of `pretty(n)` with the default `as_int_if_clean=True`. -/
def pretty (n : ℚ) : List Char :=
  if |n - roundHE n| < 1/1000000000 then intDigits (roundHE n) else fmt2 n

example : pretty 3 = "3".toList := by decide
example : pretty (3256/1000) = "3.26".toList := by decide
example : to_gp (from_gp 7 .sp) .sp = 7 := by decide

-- ---------- Python float values and float(str) ----------

/-- A Python float value: a finite value (modelled exactly as a rational),
positive or negative infinity, or `nan`. -/
inductive PyFloat
  | finite (q : ℚ)
  | inf
  | neginf
  | nan
deriving DecidableEq

/-- Python `<` on floats: `nan` compares false against everything. -/
def pyLt : PyFloat → PyFloat → Bool
  | .nan, _ => false
  | _, .nan => false
  | .finite a, .finite b => a < b
  | .finite _, .inf => true
  | .finite _, .neginf => false
  | .inf, _ => false
  | .neginf, .neginf => false
  | .neginf, _ => true

/-- Multiplication of a Python float by a positive rational constant (the
only arithmetic the program performs on user-entered floats: `to_gp`
multiplies by one of the positive rates of `UNIT_TO_GP`). -/
def pyMulRate (f : PyFloat) (r : ℚ) : PyFloat :=
  match f with
  | .finite a => .finite (a * r)
  | .inf => .inf
  | .neginf => .neginf
  | .nan => .nan

/-- Negation of a Python float (for a leading `-` sign in `float(str)`). -/
def pyNeg : PyFloat → PyFloat
  | .finite q => .finite (-q)
  | .inf => .neginf
  | .neginf => .inf
  | .nan => .nan

/-- Conversion `to_gp` applied to a parsed min/max bound:
`float(amount) * UNIT_TO_GP[unit]`. -/
def to_gpF (amount : PyFloat) (unit : CUnit) : PyFloat :=
  pyMulRate amount (UNIT_TO_GP unit)

/-- ASCII decimal digit test. -/
def isDigitCh (c : Char) : Bool := '0' ≤ c && c ≤ '9'

/-- Value of a digit string (most significant first). -/
def digitsVal (ds : List Char) : Nat := ds.foldl (fun a c => a * 10 + (c.toNat - 48)) 0

/-- Split a string into its leading digits and the rest. -/
def splitDigits (s : List Char) : List Char × List Char :=
  (s.takeWhile isDigitCh, s.dropWhile isDigitCh)

/-- Parse the exponent part of a float literal (after the `e`/`E`):
an optional sign and a nonempty digit string consuming the whole rest. -/
def parseExpPart (s : List Char) : Option Int :=
  match s with
  | [] => none
  | c :: rest =>
    let (neg, body) :=
      if c = '+' then (false, rest)
      else if c = '-' then (true, rest)
      else (false, c :: rest)
    let (ds, rest2) := splitDigits body
    if ds.isEmpty || !rest2.isEmpty then none
    else some (if neg then -(digitsVal ds : Int) else (digitsVal ds : Int))

/-- Scale a rational by a power of ten. -/
def applyExp (m : ℚ) (e : Int) : ℚ :=
  if 0 ≤ e then m * (10 : ℚ) ^ e.toNat else m / (10 : ℚ) ^ (-e).toNat

/-- Parse an unsigned decimal float literal: digits with an optional
fractional part and an optional exponent; at least one mantissa digit. -/
def parseDecimal (s : List Char) : Option ℚ :=
  let (ip, r1) := splitDigits s
  let (fp, r2) :=
    match r1 with
    | '.' :: rest => splitDigits rest
    | _ => ([], r1)
  if ip.isEmpty && fp.isEmpty then none
  else
    let mant : ℚ := (digitsVal ip : ℚ) + (digitsVal fp : ℚ) / (10 : ℚ) ^ fp.length
    match r2 with
    | [] => some mant
    | 'e' :: rest => (parseExpPart rest).map (applyExp mant)
    | 'E' :: rest => (parseExpPart rest).map (applyExp mant)
    | _ => none

/-- Parse an unsigned float body: `inf`/`infinity`/`nan` case-insensitively,
or a decimal literal. -/
def parseUnsigned (s : List Char) : Option PyFloat :=
  let l := lowerL s
  if l = "inf".toList || l = "infinity".toList then some .inf
  else if l = "nan".toList then some .nan
  else (parseDecimal s).map .finite

/-- Model of Python `float(str)`: strip surrounding whitespace, optional
sign, then an unsigned float body.  Returns `none` where Python raises
`ValueError`. -/
def parsePyFloat (s : List Char) : Option PyFloat :=
  match stripL s with
  | '+' :: rest => parseUnsigned rest
  | '-' :: rest => (parseUnsigned rest).map pyNeg
  | other => parseUnsigned other

example : parsePyFloat "3.5".toList = some (.finite (7/2)) := by decide
example : parsePyFloat "  -2e-2 ".toList = some (.finite (-1/50)) := by decide
example : parsePyFloat "+.25".toList = some (.finite (1/4)) := by decide
example : parsePyFloat "inf".toList = some .inf := by decide
example : parsePyFloat "-Infinity".toList = some .neginf := by decide
example : parsePyFloat "NaN".toList = some .nan := by decide
example : parsePyFloat "abc".toList = none := by decide
example : parsePyFloat "".toList = none := by decide
example : parsePyFloat " ".toList = none := by decide
example : parsePyFloat "5 5".toList = none := by decide
example : parsePyFloat "1e".toList = none := by decide

-- ---------- JSON values and the catalog loader (lines 151-166) ----------

/-- Item names and filenames. -/
abbrev CName := List Char

/-- A parsed JSON value as produced by `json.load`.  Object keys are
`Option CName`: `json.load` itself only ever produces `some` keys (JSON
object keys are strings), but the loader's cleaning loop explicitly guards
`if k is None`, so a null key is kept representable. -/
inductive JValue
  | null
  | bool (b : Bool)
  | num (q : ℚ)
  | str (s : List Char)
  | arr (elems : List JValue)
  | obj (entries : List (Option CName × JValue))

/-- Model of Python `float(v)` on a JSON value: numbers pass through,
booleans coerce to 1/0, strings are parsed by the `float(str)` grammar;
`None`, lists and dicts raise `TypeError` (`none` here). -/
def tryFloat : JValue → Option PyFloat
  | .bool b => some (.finite (if b then 1 else 0))
  | .num q => some (.finite q)
  | .str s => parsePyFloat s
  | _ => none

/-- A loaded catalog: an insertion-ordered mapping from item names to
prices, modelled as an association list with unique keys. -/
abbrev Catalog := List (CName × PyFloat)

/-- A Python dict assignment `d[k] = v`: overwrite in place if the key is
present, else append at the end. -/
def pyInsert : List (CName × β) → CName → β → List (CName × β)
  | [], k, v => [(k, v)]
  | (k', v') :: rest, k, v =>
    if k' = k then (k', v) :: rest else (k', v') :: pyInsert rest k v

/-- Lookup in an association list (Python `d[k]` / `k in d`). -/
def alookup : List (CName × β) → CName → Option β
  | [], _ => none
  | (k', v') :: rest, k => if k' = k then some v' else alookup rest k

/-- One iteration of the cleaning loop of `load_prices_json`: skip a null
key, coerce the key to a stripped string, skip a value rejected by
`float`, insert the rest. -/
def cleanStep (cleaned : Catalog) (kv : Option CName × JValue) : Catalog :=
  match kv.1 with
  | none => cleaned
  | some k =>
    match tryFloat kv.2 with
    | none => cleaned
    | some price => pyInsert cleaned (stripL k) price

/-- The cleaning loop of `load_prices_json` over all entries. -/
def cleanEntries (entries : List (Option CName × JValue)) : Catalog :=
  entries.foldl cleanStep []

/-- Outcome of `open` + `json.load` on a path: the file is unreadable, the
content is not valid JSON, or a parsed JSON value. -/
inductive ReadResult
  | noFile
  | badJson
  | parsed (v : JValue)

/-- The spec's loader error taxonomy. -/
inductive LoadError
  | fileReadError
  | parseError
deriving DecidableEq

/-- Whether a JSON value is an object (`isinstance(data, dict)`). -/
def JValue.isObj : JValue → Bool
  | .obj _ => true
  | _ => false

/-- Model of `load_prices_json`: `open` failures and `json.load` failures
propagate (as the spec's `FileReadError`/`ParseError`); a non-object top
level yields an empty catalog; an object is cleaned entry by entry. -/
def load_prices_json : ReadResult → Except LoadError Catalog
  | .noFile => .error .fileReadError
  | .badJson => .error .parseError
  | .parsed v =>
    .ok (match v with
         | .obj entries => cleanEntries entries
         | _ => [])

/-- The value of the last entry of `entries` whose key is non-null, whose
stripped key equals `name`, and whose value passes `float` coercion; the
spec's description of which value a name receives. -/
def specLastValue : List (Option CName × JValue) → CName → Option PyFloat
  | [], _ => none
  | (k, v) :: rest, name =>
    match specLastValue rest name with
    | some f => some f
    | none =>
      match k with
      | none => none
      | some s => if stripL s = name then tryFloat v else none

example :
    cleanEntries [(some " a".toList, .num 1), (some "a".toList, .num 2)] =
      [("a".toList, .finite 2)] := by decide
example :
    load_prices_json (.parsed (.arr [.num 3])) = .ok [] := rfl

-- ---------- Stable sorting (model of Python list.sort / sorted) ----------

/-- Stable insertion of `x` into `l`: skip the elements strictly below `x`
(per the strict comparator `lt`), then place `x` — so `x` precedes every
element it ties with, as in Python's stable sorts. -/
def sinsert (lt : α → α → Bool) (x : α) : List α → List α
  | [] => [x]
  | y :: ys => if lt y x then y :: sinsert lt x ys else x :: y :: ys

/-- Stable sort by a strict comparator.  For a total strict order on the
keys this yields the same (unique) stable result as Python's `list.sort`
with that key (ascending for `lt` = key-less-than; Python's
`reverse=True`, which is also stable, is `lt` flipped). -/
def stableSortBy (lt : α → α → Bool) : List α → List α
  | [] => []
  | x :: xs => sinsert lt x (stableSortBy lt xs)

-- ---------- Folder management (lines 98-130) ----------

/-- Model of `os.path.splitext` on a bare filename: split at the last dot,
unless every character before that dot is itself a dot (leading-dot
filenames keep their dots). -/
def splitext (s : CName) : CName × CName :=
  match s.reverse.findIdx? (fun c => c = '.') with
  | none => (s, [])
  | some r =>
    let i := s.length - 1 - r
    if (s.take i).all (fun c => c = '.') then (s, [])
    else (s.take i, s.drop i)

/-- The filter of `list_json_files`: `fn.lower().endswith(".json")`. -/
def isJsonFile (fn : CName) : Bool := endsWithL (lowerL fn) ".json".toList

/-- Model of `list_json_files`: the JSON-named entries of the folder in
sorted order.  The folder is modelled as its list of filenames (every
entry a regular file). -/
def list_json_files (folder : List CName) : List CName :=
  stableSortBy lexLt (folder.filter isJsonFile)

/-- The candidate `f"{base}_{i}{ext}"` of `dedupe_filename`. -/
def mkCand (base ext : CName) (i : Nat) : CName := base ++ '_' :: (natDigits i ++ ext)

/-- The `while os.path.exists` loop of `dedupe_filename`.  The fuel
`folder.length + 1` given below always suffices: the candidates are
pairwise distinct, so at most `folder.length` of them can be taken. -/
def dedupeLoop (folder : List CName) (base ext : CName) : Nat → Nat → CName → CName
  | 0, _, cand => cand
  | fuel + 1, i, cand =>
    if cand ∈ folder then dedupeLoop folder base ext fuel (i + 1) (mkCand base ext i)
    else cand

/-- Model of `dedupe_filename(folder, filename)`. -/
def dedupe_filename (folder : List CName) (filename : CName) : CName :=
  let be := splitext filename
  dedupeLoop folder be.1 be.2 (folder.length + 1) 1 filename

/-- The destination-filename computation of `safe_copy_into_json_dir`:
append a `.json` extension when missing, then deduplicate. -/
def safe_copy_filename (folder : List CName) (srcName : CName) : CName :=
  let filename :=
    if endsWithL (lowerL srcName) ".json".toList then srcName
    else srcName ++ ".json".toList
  dedupe_filename folder filename

-- ---------- Merge-all loading (lines 434-506) ----------

/-- The display name of a path in the file dropdown:
`os.path.splitext(basename)[0]`. -/
def displayName (fn : CName) : CName := (splitext fn).1

/-- Model of `_refresh_file_list`'s `file_index` construction: a dict from
display name to path, filled from the sorted file list. -/
def fileIndex (folder : List CName) : List (CName × CName) :=
  (list_json_files folder).foldl (fun idx p => pyInsert idx (displayName p) p) []

/-- The ambient file contents: what `open` + `json.load` yields per path. -/
abbrev FileSys := CName → ReadResult

/-- Python `merged.update(data)`: insert every entry of `data` in order. -/
def mergeInto (merged : Catalog) (data : Catalog) : Catalog :=
  data.foldl (fun m kv => pyInsert m kv.1 kv.2) merged

/-- Model of `_load_items_for_selection` in the `"All files"` case: fold
over the file index, merging each loadable file and skipping failures. -/
def load_items_all (fs : FileSys) (folder : List CName) : Catalog :=
  (fileIndex folder).foldl
    (fun merged kv =>
      match load_prices_json (fs kv.2) with
      | .ok data => mergeInto merged data
      | .error _ => merged)
    []

/-- The fold described by the claim: merge every JSON file of the folder
(not the file index) in sorted order, skipping load failures. -/
def claimMergeAll (fs : FileSys) (folder : List CName) : Catalog :=
  (list_json_files folder).foldl
    (fun merged p =>
      match load_prices_json (fs p) with
      | .ok data => mergeInto merged data
      | .error _ => merged)
    []

/-- The spec's description of the merged value of `name`: the value from
the last path of `paths` that loads successfully and defines `name` (a
load failure is skipped; an earlier source is consulted only when no later
one defines the name). -/
def specLastSource (fs : FileSys) : List CName → CName → Option PyFloat
  | [], _ => none
  | p :: rest, name =>
    match specLastSource fs rest name with
    | some v => some v
    | none =>
      match load_prices_json (fs p) with
      | .ok data => alookup data name
      | .error _ => none

-- ---------- Filtering (lines 516-544) ----------

/-- The mutable state of `App` that `_apply_filters` reads and writes. -/
structure AppState where
  items : Catalog
  filtered_items : Catalog
  name_var : CName
  min_var : CName
  max_var : CName
  unit_var : CUnit

/-- Parsing of one already-stripped min/max field inside the `try` block:
`some none` for an empty field (no bound), `some (some f)` for a parsed
bound, `none` for a `ValueError`. -/
def parseOptField (s : CName) : Option (Option PyFloat) :=
  if s = [] then some none
  else
    match parsePyFloat s with
    | some f => some (some f)
    | none => none

/-- The per-item test of `_apply_filters`' loop: an item is appended unless
one of the three `continue` guards fires. -/
def rowKeep (name_query : CName) (min_gp max_gp : Option PyFloat) (kv : CName × PyFloat) : Bool :=
  (name_query.isEmpty || containsSub name_query (lowerL kv.1)) &&
  (match min_gp with
   | none => true
   | some m => !(pyLt kv.2 m)) &&
  (match max_gp with
   | none => true
   | some m => !(pyLt m kv.2))

/-- Model of `_apply_filters`.  Returns the new state and whether the
"Invalid Range" warning fired (in which case the method returned early and
the state, in particular `filtered_items`, is untouched). -/
def applyFilters (st : AppState) : AppState × Bool :=
  let name_query := lowerL (stripL st.name_var)
  match parseOptField (stripL st.min_var) with
  | none => (st, true)
  | some min_amt =>
    match parseOptField (stripL st.max_var) with
    | none => (st, true)
    | some max_amt =>
      let min_gp := min_amt.map (fun f => to_gpF f st.unit_var)
      let max_gp := max_amt.map (fun f => to_gpF f st.unit_var)
      let results := st.items.filter (rowKeep name_query min_gp max_gp)
      ({ st with filtered_items := results }, false)

-- ---------- Table sorting (lines 547-581) ----------

/-- The table columns. -/
inductive Col | name | pp | gp | ep | sp | cp
deriving DecidableEq

/-- A displayed table row: the item name and the five pretty-printed
denomination cells, all strings. -/
structure Row where
  name : CName
  pp : CName
  gp : CName
  ep : CName
  sp : CName
  cp : CName
deriving DecidableEq

/-- The cell of a row in a given column. -/
def cellOf (r : Row) : Col → CName
  | .name => r.name
  | .pp => r.pp
  | .gp => r.gp
  | .ep => r.ep
  | .sp => r.sp
  | .cp => r.cp

/-- Membership in `_sort_by`'s `numeric_cols`. -/
def Col.isNumeric : Col → Bool
  | .name => false
  | _ => true

/-- The `to_num` helper of `_sort_by`: parse the cell, unparsable cells
become `float("inf")`. -/
def to_num (s : CName) : PyFloat :=
  match parsePyFloat s with
  | some f => f
  | none => .inf

/-- Model of `_sort_by`: stable sort of the displayed rows by the chosen
column, numerically for denomination columns and case-insensitively as
text for the name column; `descending` flips the key order (Python's
`reverse=True`, which keeps ties in prior order). -/
def sort_by (col : Col) (descending : Bool) (rows : List Row) : List Row :=
  if col.isNumeric then
    if descending then
      stableSortBy (fun a b => pyLt (to_num (cellOf b col)) (to_num (cellOf a col))) rows
    else
      stableSortBy (fun a b => pyLt (to_num (cellOf a col)) (to_num (cellOf b col))) rows
  else
    if descending then
      stableSortBy (fun a b => lexLt (lowerL (cellOf b col)) (lowerL (cellOf a col))) rows
    else
      stableSortBy (fun a b => lexLt (lowerL (cellOf a col)) (lowerL (cellOf b col))) rows

/-- The row `_refresh_table` inserts for a finite item price. -/
def mkRow (name : CName) (gp_value : ℚ) : Row :=
  { name := name
    pp := pretty (from_gp gp_value .pp)
    gp := pretty (from_gp gp_value .gp)
    ep := pretty (from_gp gp_value .ep)
    sp := pretty (from_gp gp_value .sp)
    cp := pretty (from_gp gp_value .cp) }

example :
    sort_by .gp false [mkRow "B".toList 5, mkRow "A".toList 5, mkRow "C".toList 3] =
      [mkRow "C".toList 3, mkRow "B".toList 5, mkRow "A".toList 5] := by decide

example :
    dedupe_filename ["prices.json".toList] "prices.json".toList =
      "prices_1.json".toList := by decide

-- ---------- Association-list lemmas ----------

lemma alookup_pyInsert {β : Type} (l : List (CName × β)) (k : CName) (v : β) (n : CName) :
    alookup (pyInsert l k v) n = if k = n then some v else alookup l n := by
  induction l with
  | nil => simp [pyInsert, alookup]
  | cons hd tl ih =>
    obtain ⟨k', v'⟩ := hd
    by_cases h1 : k' = k
    · subst h1
      by_cases h2 : k' = n <;> simp [pyInsert, alookup, h2]
    · by_cases h2 : k' = n
      · subst h2
        have : ¬ k = k' := fun h => h1 h.symm
        simp [pyInsert, alookup, h1, this]
      · simp [pyInsert, alookup, h1, h2, ih]

lemma alookup_cleanFold (entries : List (Option CName × JValue)) :
    ∀ (acc : Catalog) (name : CName),
      alookup (entries.foldl cleanStep acc) name =
        match specLastValue entries name with
        | some f => some f
        | none => alookup acc name := by
  induction entries with
  | nil => intro acc name; simp [specLastValue]
  | cons hd rest ih =>
    intro acc name
    obtain ⟨k, v⟩ := hd
    rw [List.foldl_cons, ih]
    rcases hrest : specLastValue rest name with _ | f
    · rcases k with _ | s
      · simp [specLastValue, hrest, cleanStep]
      · by_cases hs : stripL s = name
        · rcases hv : tryFloat v with _ | p
          · simp [specLastValue, hrest, cleanStep, hs, hv]
          · simp [specLastValue, hrest, cleanStep, hs, hv, alookup_pyInsert]
        · rcases hv : tryFloat v with _ | p
          · simp [specLastValue, hrest, cleanStep, hs, hv]
          · simp [specLastValue, hrest, cleanStep, hs, hv, alookup_pyInsert]
    · simp [specLastValue, hrest]

lemma alookup_cleanEntries (entries : List (Option CName × JValue)) (name : CName) :
    alookup (cleanEntries entries) name = specLastValue entries name := by
  rw [cleanEntries, alookup_cleanFold]
  rcases h : specLastValue entries name <;> simp [alookup]

lemma specLastValue_ne_none_of_mem (entries : List (Option CName × JValue))
    (k : CName) (v : JValue) (hmem : (some k, v) ∈ entries)
    (hv : tryFloat v ≠ none) : specLastValue entries (stripL k) ≠ none := by
  induction entries with
  | nil => cases hmem
  | cons hd rest ih =>
    rcases List.mem_cons.mp hmem with heq | htail
    · rcases hrest : specLastValue rest (stripL k) with _ | f
      · rw [← heq]
        simp [specLastValue, hrest]
        exact hv
      · rw [← heq]
        simp [specLastValue, hrest]
    · have := ih htail
      rcases hrest : specLastValue rest (stripL k) with _ | f
      · exact absurd hrest this
      · obtain ⟨k0, v0⟩ := hd
        simp [specLastValue, hrest]

lemma specLastValue_some_src (entries : List (Option CName × JValue)) :
    ∀ (name : CName) (f : PyFloat), specLastValue entries name = some f →
      ∃ k v, (some k, v) ∈ entries ∧ stripL k = name ∧ tryFloat v = some f := by
  induction entries with
  | nil => intro name f h; simp [specLastValue] at h
  | cons hd rest ih =>
    intro name f h
    obtain ⟨k0, v0⟩ := hd
    rcases hrest : specLastValue rest name with _ | g
    · simp only [specLastValue, hrest] at h
      rcases k0 with _ | s
      · simp at h
      · by_cases hs : stripL s = name
        · simp only [hs, if_pos rfl] at h
          exact ⟨s, v0, List.mem_cons_self _ _, hs, h⟩
        · simp [hs] at h
    · simp only [specLastValue, hrest] at h
      obtain ⟨k, v, hmem, hstrip, hfloat⟩ := ih name g hrest
      exact ⟨k, v, List.mem_cons_of_mem _ hmem, hstrip, by rw [hfloat, ← h]⟩

-- ---------- Claim C2 ----------

/-- C2: for every price `p ≥ 0` and every denomination `u`, converting out
of base units and back — `to_gp(from_gp(p)[u], u) = (p / rate[u]) * rate[u]`
— returns `p` (exactly in this rational model, hence within `1e-9`). -/
theorem claim_C2_roundtrip (p : ℚ) (u : CUnit) (_hp : 0 ≤ p) :
    to_gp (from_gp p u) u = p ∧ |to_gp (from_gp p u) u - p| < 1/1000000000 := by
  have hr : UNIT_TO_GP u ≠ 0 := by cases u <;> norm_num [UNIT_TO_GP]
  have h : to_gp (from_gp p u) u = p := by
    rw [to_gp, from_gp, div_mul_cancel₀ _ hr]
  refine ⟨h, ?_⟩
  rw [h]
  norm_num

theorem claim_C2_witness :
    to_gp (from_gp 3 .ep) .ep = 3 ∧ |to_gp (from_gp 3 .ep) .ep - 3| < 1/1000000000 :=
  claim_C2_roundtrip 3 .ep (by norm_num)

-- ---------- Claim C3 ----------

/-- C3: the loader fails with a file-read error when the file cannot be
opened and a parse error when the content is not valid JSON, and for every
valid JSON value with a non-object top level it returns an empty catalog
without failing. -/
theorem claim_C3_loader_errors :
    load_prices_json .noFile = .error .fileReadError ∧
    load_prices_json .badJson = .error .parseError ∧
    ∀ v : JValue, v.isObj = false → load_prices_json (.parsed v) = .ok [] := by
  refine ⟨rfl, rfl, ?_⟩
  intro v h
  cases v <;> simp_all [load_prices_json, JValue.isObj]

theorem claim_C3_witness :
    JValue.isObj (.arr []) = false ∧ load_prices_json (.parsed (.arr [])) = .ok [] :=
  ⟨rfl, claim_C3_loader_errors.2.2 (.arr []) rfl⟩

-- ---------- Claim C4 ----------

/-- C4 (amended): for every top-level object, the loader skips entries with
null keys and entries whose value `float` rejects; looking up any name in
the result yields exactly the `float`-coerced value of the last surviving
entry whose stripped key equals that name (later entries overwrite earlier
ones when stripping makes keys collide), and names with no surviving entry
are absent. -/
theorem claim_C4_clean_lookup (entries : List (Option CName × JValue)) (name : CName) :
    alookup (cleanEntries entries) name = specLastValue entries name :=
  alookup_cleanEntries entries name

/-- C4 as stated is false: with entries `" a" ↦ 1` and `"a" ↦ 2`, both keys
strip to `"a"`, so the first entry — non-null key, numeric value — is not
present in the result under its stripped key with its value. -/
theorem claim_C4_counterexample :
    tryFloat (JValue.num 1) = some (.finite 1) ∧
    stripL " a".toList = "a".toList ∧
    cleanEntries [(some " a".toList, .num 1), (some "a".toList, .num 2)] =
      [("a".toList, .finite 2)] ∧
    ("a".toList, PyFloat.finite 1) ∉
      cleanEntries [(some " a".toList, .num 1), (some "a".toList, .num 2)] := by
  refine ⟨rfl, by decide, by decide, by decide⟩

-- ---------- Claim C10 ----------

/-- C10 (amended): the loader's notion of "interpretable as a real number"
is Python float coercion: every entry whose value `float` accepts
contributes its stripped key to the result, every value in the result is
the `float` coercion of some contributing entry (when stripped keys
collide, the last such entry's value wins), and `float` accepts numeric
strings including `inf`/`nan` and booleans (as 1/0) while rejecting null,
non-numeric strings, arrays and nested objects. -/
theorem claim_C10_float_coercion :
    (∀ (entries : List (Option CName × JValue)) (k : CName) (v : JValue),
       (some k, v) ∈ entries → tryFloat v ≠ none →
       ∃ f, alookup (cleanEntries entries) (stripL k) = some f) ∧
    (∀ (entries : List (Option CName × JValue)) (name : CName) (f : PyFloat),
       alookup (cleanEntries entries) name = some f →
       ∃ k v, (some k, v) ∈ entries ∧ stripL k = name ∧ tryFloat v = some f) ∧
    tryFloat (.str "3.5".toList) = some (.finite (7/2)) ∧
    tryFloat (.str "inf".toList) = some .inf ∧
    tryFloat (.str "nan".toList) = some .nan ∧
    tryFloat (.bool true) = some (.finite 1) ∧
    tryFloat (.bool false) = some (.finite 0) ∧
    tryFloat .null = none ∧
    (∀ elems, tryFloat (.arr elems) = none) ∧
    (∀ entries, tryFloat (.obj entries) = none) ∧
    tryFloat (.str "abc".toList) = none := by
  refine ⟨?_, ?_, by decide, by decide, by decide, rfl, rfl, rfl,
    fun _ => rfl, fun _ => rfl, by decide⟩
  · intro entries k v hmem hv
    rw [alookup_cleanEntries]
    rcases h : specLastValue entries (stripL k) with _ | f
    · exact absurd h (specLastValue_ne_none_of_mem entries k v hmem hv)
    · exact ⟨f, rfl⟩
  · intro entries name f h
    rw [alookup_cleanEntries] at h
    exact specLastValue_some_src entries name f h

/-- C10 as stated is false: the entry `"a " ↦ "3.5"` has a string value
parseable as a float, yet the result does not contain its stripped key
with the parsed value `3.5` — a later entry collides after stripping. -/
theorem claim_C10_counterexample :
    tryFloat (.str "3.5".toList) = some (.finite (7/2)) ∧
    cleanEntries [(some "a ".toList, .str "3.5".toList), (some "a".toList, .num 2)] =
      [("a".toList, .finite 2)] ∧
    ("a".toList, PyFloat.finite (7/2)) ∉
      cleanEntries [(some "a ".toList, .str "3.5".toList), (some "a".toList, .num 2)] := by
  refine ⟨by decide, by decide, by decide⟩

theorem claim_C10_witness :
    ∃ f, alookup (cleanEntries [(some "k".toList, JValue.bool true)])
      (stripL "k".toList) = some f :=
  claim_C10_float_coercion.1 [(some "k".toList, JValue.bool true)] "k".toList
    (JValue.bool true) (List.Mem.head _) (by decide)

-- ---------- Claim C9 ----------

lemma roundHE_eq_of_close (n : ℚ) (k : ℤ) (h : |n - k| < 1/1000000000) :
    roundHE n = k := by
  have hf1 : (⌊n⌋ : ℚ) ≤ n := Int.floor_le n
  have hf2 : n < ⌊n⌋ + 1 := Int.lt_floor_add_one n
  rw [abs_lt] at h
  obtain ⟨h1, h2⟩ := h
  have hk1 : ⌊n⌋ ≤ k := by
    have hq : (⌊n⌋ : ℚ) - 1 < (k : ℚ) := by linarith
    have : (⌊n⌋ : ℤ) - 1 < k := by exact_mod_cast hq
    omega
  have hk2 : k ≤ ⌊n⌋ + 1 := by
    have hq : (k : ℚ) < (⌊n⌋ : ℚ) + 2 := by linarith
    have : k < (⌊n⌋ : ℤ) + 2 := by exact_mod_cast hq
    omega
  rcases (by omega : k = ⌊n⌋ ∨ k = ⌊n⌋ + 1) with hk | hk
  · subst hk
    have hr : n - (⌊n⌋ : ℚ) < 1/2 := by linarith
    simp only [roundHE]
    rw [if_pos hr]
  · have hkq : (k : ℚ) = (⌊n⌋ : ℚ) + 1 := by exact_mod_cast hk
    have hr : 1/2 < n - (⌊n⌋ : ℚ) := by linarith
    simp only [roundHE]
    rw [if_neg (by linarith), if_pos hr, ← hk]

/-- C9: `pretty(n)` renders `n` as a bare integer whenever `n` is within
`1e-9` of an integer `k` (namely as `str(k)`), and otherwise as `n` to
exactly two decimal places; in particular `pretty(3) = "3"` and
`pretty(3.256) = "3.26"`. -/
theorem claim_C9_pretty :
    (∀ (n : ℚ) (k : ℤ), |n - k| < 1/1000000000 → pretty n = intDigits k) ∧
    (∀ n : ℚ, (∀ k : ℤ, ¬ |n - k| < 1/1000000000) →
       pretty n = fmt2 n ∧ ∃ pre d1 d2, pretty n = pre ++ '.' :: [d1, d2]) ∧
    pretty 3 = "3".toList ∧ pretty (3256/1000) = "3.26".toList := by
  refine ⟨?_, ?_, by decide, by decide⟩
  · intro n k h
    have hr := roundHE_eq_of_close n k h
    rw [pretty, hr, if_pos h]
  · intro n h
    have hcond : ¬ |n - roundHE n| < 1/1000000000 := h (roundHE n)
    have hfmt : pretty n = fmt2 n := by rw [pretty, if_neg hcond]
    refine ⟨hfmt, (if n < 0 then ['-'] else []) ++
      natDigits ((roundHE (|n| * 100)).toNat / 100),
      digitCh ((roundHE (|n| * 100)).toNat % 100 / 10),
      digitCh ((roundHE (|n| * 100)).toNat % 100 % 10), ?_⟩
    rw [hfmt, fmt2, twoDigits, List.append_assoc]

theorem claim_C9_witness :
    (|(3 : ℚ) - ((3 : ℤ) : ℚ)| < 1/1000000000 ∧ pretty 3 = intDigits 3) ∧
    ((∀ k : ℤ, ¬ |(3256/1000 : ℚ) - k| < 1/1000000000) ∧
      pretty (3256/1000) = fmt2 (3256/1000)) := by
  have hfar : ∀ k : ℤ, ¬ |(3256/1000 : ℚ) - k| < 1/1000000000 := by
    intro k hcon
    rw [abs_lt] at hcon
    obtain ⟨hc1, hc2⟩ := hcon
    rcases (by omega : k ≤ 3 ∨ 4 ≤ k) with hk | hk
    · have : (k : ℚ) ≤ 3 := by exact_mod_cast hk
      linarith
    · have : (4 : ℚ) ≤ (k : ℚ) := by exact_mod_cast hk
      linarith
  exact ⟨⟨by norm_num, claim_C9_pretty.1 3 3 (by norm_num)⟩,
    ⟨hfar, (claim_C9_pretty.2.1 (3256/1000) hfar).1⟩⟩

-- ---------- Claim C1 ----------

lemma mem_map_finite (items : List (CName × ℚ)) (n : CName) (p : ℚ) :
    (n, PyFloat.finite p) ∈ items.map (fun it => (it.1, PyFloat.finite it.2)) ↔
      (n, p) ∈ items := by
  rw [List.mem_map]
  constructor
  · rintro ⟨⟨n', p'⟩, hin, heq⟩
    simp only [Prod.mk.injEq, PyFloat.finite.injEq] at heq
    obtain ⟨rfl, rfl⟩ := heq
    exact hin
  · intro hin
    exact ⟨(n, p), hin, rfl⟩

/-- C1: for every catalog and every filter criteria — optional name query,
optional min, optional max (numbers, entered in the chosen unit) — the
filter operation outputs exactly the catalog items satisfying: the
stripped lowercased query is empty or a substring of the lowercased name,
AND the base-unit price is at least the min converted to base units (when
present), AND at most the max converted to base units (when present). -/
theorem claim_C1_filter (items : List (CName × ℚ)) (old : Catalog)
    (nameq minq maxq : CName) (mnQ mxQ : Option ℚ) (u : CUnit)
    (hmin : parseOptField (stripL minq) = some (mnQ.map PyFloat.finite))
    (hmax : parseOptField (stripL maxq) = some (mxQ.map PyFloat.finite))
    (n : CName) (p : ℚ) :
    (n, PyFloat.finite p) ∈
      ((applyFilters ⟨items.map (fun it => (it.1, PyFloat.finite it.2)),
        old, nameq, minq, maxq, u⟩).1).filtered_items ↔
      ((n, p) ∈ items ∧
       (lowerL (stripL nameq) = [] ∨
         containsSub (lowerL (stripL nameq)) (lowerL n) = true) ∧
       (∀ a, mnQ = some a → to_gp a u ≤ p) ∧
       (∀ b, mxQ = some b → p ≤ to_gp b u)) := by
  simp only [applyFilters, hmin, hmax]
  rw [List.mem_filter]
  rw [mem_map_finite]
  refine and_congr_right fun _ => ?_
  rcases mnQ with _ | a <;> rcases mxQ with _ | b <;>
    simp [rowKeep, to_gpF, pyMulRate, pyLt, to_gp, List.isEmpty_iff, not_lt,
      and_assoc]

theorem claim_C1_witness :
    ((("Dagger".toList, PyFloat.finite 2) ∈
      ((applyFilters ⟨[("Dagger".toList, (2:ℚ)), ("Longsword".toList, (15:ℚ))].map
          (fun it => (it.1, PyFloat.finite it.2)),
        [], "".toList, "1".toList, "10".toList, .gp⟩).1).filtered_items) ↔
      (("Dagger".toList, (2:ℚ)) ∈ [("Dagger".toList, (2:ℚ)), ("Longsword".toList, (15:ℚ))] ∧
       (lowerL (stripL "".toList) = [] ∨
         containsSub (lowerL (stripL "".toList)) (lowerL "Dagger".toList) = true) ∧
       (∀ a, (some (1:ℚ)) = some a → to_gp a .gp ≤ 2) ∧
       (∀ b, (some (10:ℚ)) = some b → 2 ≤ to_gp b .gp))) :=
  claim_C1_filter [("Dagger".toList, (2:ℚ)), ("Longsword".toList, (15:ℚ))] []
    "".toList "1".toList "10".toList (some 1) (some 10) .gp
    (by decide) (by decide) "Dagger".toList 2

-- ---------- Claim C5 ----------

lemma parseOptField_eq_none (s : CName) :
    parseOptField s = none ↔ (s ≠ [] ∧ parsePyFloat s = none) := by
  rw [parseOptField]
  split_ifs with h
  · simp [h]
  · rcases hp : parsePyFloat s with _ | f <;> simp [h, hp]

/-- C5 (amended): the filter operation shows the Invalid Range warning if
and only if the min field or the max field is non-empty after stripping
surrounding whitespace and not parseable as a float; and whenever the
warning fires, the whole state — in particular the displayed
`filtered_items` — is left unchanged. -/
theorem claim_C5_invalid_range (st : AppState) :
    ((applyFilters st).2 = true ↔
      ((stripL st.min_var ≠ [] ∧ parsePyFloat (stripL st.min_var) = none) ∨
       (stripL st.max_var ≠ [] ∧ parsePyFloat (stripL st.max_var) = none))) ∧
    ((applyFilters st).2 = true → (applyFilters st).1 = st) := by
  rcases h1 : parseOptField (stripL st.min_var) with _ | ma
  · refine ⟨?_, ?_⟩
    · exact iff_of_true (by simp [applyFilters, h1])
        (Or.inl ((parseOptField_eq_none _).mp h1))
    · intro _
      simp [applyFilters, h1]
  · rcases h2 : parseOptField (stripL st.max_var) with _ | mb
    · refine ⟨?_, ?_⟩
      · exact iff_of_true (by simp [applyFilters, h1, h2])
          (Or.inr ((parseOptField_eq_none _).mp h2))
      · intro _
        simp [applyFilters, h1, h2]
    · have hL : (applyFilters st).2 = false := by simp [applyFilters, h1, h2]
      refine ⟨?_, ?_⟩
      · refine iff_of_false (by simp [hL]) ?_
        rintro (⟨hne, hp⟩ | ⟨hne, hp⟩)
        · rw [(parseOptField_eq_none _).mpr ⟨hne, hp⟩] at h1
          cases h1
        · rw [(parseOptField_eq_none _).mpr ⟨hne, hp⟩] at h2
          cases h2
      · intro hcon
        rw [hL] at hcon
        cases hcon

/-- C5 as stated is false: a min field consisting of a single space is
non-empty and not parseable as a number, yet no Invalid Range warning
fires and the displayed rows are replaced. -/
theorem claim_C5_counterexample :
    " ".toList ≠ [] ∧ parsePyFloat " ".toList = none ∧
    (applyFilters ⟨[("a".toList, PyFloat.finite 5)], [], [], " ".toList, [], .gp⟩).2
      = false ∧
    (applyFilters ⟨[("a".toList, PyFloat.finite 5)], [], [], " ".toList, [],
      .gp⟩).1.filtered_items = [("a".toList, PyFloat.finite 5)] := by
  refine ⟨by decide, by decide, by decide, by decide⟩

theorem claim_C5_witness :
    (applyFilters ⟨[("a".toList, PyFloat.finite 5)],
      [("old".toList, PyFloat.finite 1)], [], "x".toList, [], .gp⟩).2 = true ∧
    (applyFilters ⟨[("a".toList, PyFloat.finite 5)],
      [("old".toList, PyFloat.finite 1)], [], "x".toList, [], .gp⟩).1 =
      ⟨[("a".toList, PyFloat.finite 5)],
        [("old".toList, PyFloat.finite 1)], [], "x".toList, [], .gp⟩ := by
  have h := claim_C5_invalid_range ⟨[("a".toList, PyFloat.finite 5)],
    [("old".toList, PyFloat.finite 1)], [], "x".toList, [], .gp⟩
  have hw := h.1.mpr (Or.inl ⟨by decide, by decide⟩)
  exact ⟨hw, h.2 hw⟩

-- ---------- Claim C8 ----------

lemma splitext_append (s : CName) : (splitext s).1 ++ (splitext s).2 = s := by
  rw [splitext]
  rcases h : s.reverse.findIdx? (fun c => c = '.') with _ | r
  · simp
  · simp only
    split_ifs with hall
    · simp
    · exact List.take_append_drop _ s

lemma natDigitsGo_zero (fuel : Nat) (acc : List Char) : natDigitsGo fuel 0 acc = acc := by
  cases fuel <;> simp [natDigitsGo]

lemma natDigitsGo_eq (fuel : Nat) :
    ∀ (n : Nat) (acc : List Char), 0 < n → n ≤ fuel →
      natDigitsGo fuel n acc = ((Nat.digits 10 n).map digitCh).reverse ++ acc := by
  induction fuel with
  | zero => intro n acc hn hle; omega
  | succ fuel ih =>
    intro n acc hn hle
    rw [natDigitsGo, if_neg (by omega)]
    rcases Nat.eq_zero_or_pos (n / 10) with hq | hq
    · have hlt : n < 10 := by
        by_contra hge
        have : 0 < n / 10 := Nat.div_pos (by omega) (by norm_num)
        omega
      rw [hq, natDigitsGo_zero]
      rw [Nat.digits_def' (by norm_num : (1:ℕ) < 10) hn, hq]
      simp [Nat.mod_eq_of_lt hlt]
    · have hle2 : n / 10 ≤ fuel := by
        have := Nat.div_lt_self hn (by norm_num : 1 < 10)
        omega
      rw [ih (n / 10) _ hq hle2]
      rw [Nat.digits_def' (by norm_num : (1:ℕ) < 10) hn]
      simp [List.append_assoc]

lemma natDigits_eq (n : Nat) (hn : 0 < n) :
    natDigits n = ((Nat.digits 10 n).map digitCh).reverse := by
  rw [natDigits, if_neg (by omega), natDigitsGo_eq n n [] hn le_rfl, List.append_nil]

lemma digitCh_inj (a b : Nat) (ha : a < 10) (hb : b < 10)
    (h : digitCh a = digitCh b) : a = b := by
  have key : ∀ x : Fin 10, ∀ y : Fin 10, digitCh x.val = digitCh y.val → x = y := by
    decide
  exact congrArg Fin.val (key ⟨a, ha⟩ ⟨b, hb⟩ h)

lemma map_digitCh_inj : ∀ (l1 l2 : List Nat), (∀ x ∈ l1, x < 10) →
    (∀ x ∈ l2, x < 10) → l1.map digitCh = l2.map digitCh → l1 = l2 := by
  intro l1
  induction l1 with
  | nil =>
    intro l2 _ _ h
    cases l2 with
    | nil => rfl
    | cons b t2 => simp at h
  | cons a t ih =>
    intro l2 h1 h2 h
    cases l2 with
    | nil => simp at h
    | cons b t2 =>
      simp only [List.map_cons, List.cons.injEq] at h
      obtain ⟨hab, ht⟩ := h
      have hx := digitCh_inj a b (h1 a (List.mem_cons_self _ _))
        (h2 b (List.mem_cons_self _ _)) hab
      rw [hx, ih t2 (fun x hx2 => h1 x (List.mem_cons_of_mem _ hx2))
        (fun x hx2 => h2 x (List.mem_cons_of_mem _ hx2)) ht]

lemma natDigits_ne_nil (n : Nat) : natDigits n ≠ [] := by
  rcases Nat.eq_zero_or_pos n with h | h
  · subst h; simp [natDigits]
  · rw [natDigits_eq n h]
    have hd : Nat.digits 10 n ≠ [] := Nat.digits_ne_nil_iff_ne_zero.mpr (by omega)
    simpa using hd

lemma natDigits_pos_ne_zero_digits (n : Nat) (hn : 0 < n) :
    natDigits n ≠ ['0'] := by
  intro hcon
  rw [natDigits_eq n hn] at hcon
  have h1 : (Nat.digits 10 n).map digitCh = ['0'] := by
    have := congrArg List.reverse hcon
    simpa using this
  have h2 : Nat.digits 10 n = [0] := by
    apply map_digitCh_inj _ [0]
      (fun x hx => Nat.digits_lt_base (by norm_num) hx)
      (by intro x hx; simp at hx; omega)
    rw [h1]; rfl
  have h3 := congrArg (Nat.ofDigits 10) h2
  rw [Nat.ofDigits_digits] at h3
  simp [Nat.ofDigits] at h3
  omega

lemma natDigits_inj (m n : Nat) (h : natDigits m = natDigits n) : m = n := by
  rcases Nat.eq_zero_or_pos m with hm | hm <;> rcases Nat.eq_zero_or_pos n with hn | hn
  · omega
  · exfalso
    subst hm
    exact natDigits_pos_ne_zero_digits n hn (by simpa [natDigits] using h.symm)
  · exfalso
    subst hn
    exact natDigits_pos_ne_zero_digits m hm (by simpa [natDigits] using h)
  · rw [natDigits_eq m hm, natDigits_eq n hn] at h
    have h1 : (Nat.digits 10 m).map digitCh = (Nat.digits 10 n).map digitCh := by
      have := congrArg List.reverse h
      simpa using this
    have h2 := map_digitCh_inj _ _
      (fun x hx => Nat.digits_lt_base (by norm_num) hx)
      (fun x hx => Nat.digits_lt_base (by norm_num) hx) h1
    have h3 := congrArg (Nat.ofDigits 10) h2
    rwa [Nat.ofDigits_digits, Nat.ofDigits_digits] at h3

lemma mkCand_inj (base ext : CName) (i j : Nat)
    (h : mkCand base ext i = mkCand base ext j) : i = j := by
  rw [mkCand, mkCand] at h
  have h1 := List.append_cancel_left h
  injection h1 with _ h2
  exact natDigits_inj i j (List.append_cancel_right h2)

lemma base_ext_ne_mkCand (base ext : CName) (i : Nat) :
    base ++ ext ≠ mkCand base ext i := by
  intro h
  have hlen := congrArg List.length h
  simp only [mkCand, List.length_append, List.length_cons] at hlen
  have hd : 0 < (natDigits i).length := List.length_pos.mpr (natDigits_ne_nil i)
  omega

/-- The sequence of candidates tried by `dedupe_filename`'s loop: the
current candidate, then `mkCand base ext i`, `mkCand base ext (i+1)`, …. -/
def dSeq (base ext cand : CName) (i : Nat) : Nat → CName
  | 0 => cand
  | t + 1 => mkCand base ext (i + t)

lemma dSeq_shift (base ext cand : CName) (i t : Nat) :
    dSeq base ext (mkCand base ext i) (i + 1) t = dSeq base ext cand i (t + 1) := by
  cases t with
  | zero => simp [dSeq]
  | succ s =>
    show mkCand base ext (i + 1 + s) = mkCand base ext (i + (s + 1))
    exact congrArg (mkCand base ext) (by omega)

lemma dedupeLoop_spec (folder : List CName) (base ext : CName) :
    ∀ (fuel i : Nat) (cand : CName),
      (∃ t, t < fuel ∧ dSeq base ext cand i t ∉ folder) →
      ∃ T, dedupeLoop folder base ext fuel i cand = dSeq base ext cand i T ∧
        dSeq base ext cand i T ∉ folder ∧
        ∀ t, t < T → dSeq base ext cand i t ∈ folder := by
  intro fuel
  induction fuel with
  | zero =>
    rintro i cand ⟨t, ht, _⟩
    omega
  | succ fuel ih =>
    intro i cand hex
    by_cases hc : cand ∈ folder
    · rw [dedupeLoop, if_pos hc]
      obtain ⟨t, ht, hfree⟩ := hex
      have ht0 : t ≠ 0 := by rintro rfl; exact hfree hc
      obtain ⟨s, rfl⟩ : ∃ s, t = s + 1 := ⟨t - 1, by omega⟩
      have hex2 : ∃ t2, t2 < fuel ∧
          dSeq base ext (mkCand base ext i) (i + 1) t2 ∉ folder :=
        ⟨s, by omega, by rw [dSeq_shift base ext cand]; exact hfree⟩
      obtain ⟨T, hres, hfreeT, hmin⟩ := ih (i + 1) (mkCand base ext i) hex2
      refine ⟨T + 1, ?_, ?_, ?_⟩
      · rw [hres, dSeq_shift base ext cand]
      · rw [← dSeq_shift base ext cand]; exact hfreeT
      · intro t2 ht2
        cases t2 with
        | zero => exact hc
        | succ s2 =>
          rw [← dSeq_shift base ext cand]
          exact hmin s2 (by omega)
    · rw [dedupeLoop, if_neg hc]
      exact ⟨0, rfl, hc, by omega⟩

lemma exists_free_candidate (folder : List CName) (base ext : CName) :
    ∃ t, t < folder.length + 1 ∧ dSeq base ext (base ++ ext) 1 t ∉ folder := by
  by_contra hcon
  push_neg at hcon
  have hnodup : ((base ++ ext) ::
      (List.range folder.length).map (fun t => mkCand base ext (1 + t))).Nodup := by
    rw [List.nodup_cons]
    refine ⟨?_, ?_⟩
    · intro hmem
      obtain ⟨t, _, heq⟩ := List.mem_map.mp hmem
      exact base_ext_ne_mkCand base ext (1 + t) heq.symm
    · refine (List.nodup_range folder.length).map ?_
      intro a b hab
      have := mkCand_inj base ext (1 + a) (1 + b) hab
      omega
  have hsub : ((base ++ ext) ::
      (List.range folder.length).map (fun t => mkCand base ext (1 + t))).toFinset ⊆
      folder.toFinset := by
    intro x hx
    rw [List.mem_toFinset] at hx ⊢
    rcases List.mem_cons.mp hx with rfl | hx2
    · exact hcon 0 (by omega)
    · obtain ⟨t, htr, rfl⟩ := List.mem_map.mp hx2
      have htn : t < folder.length := List.mem_range.mp htr
      exact hcon (t + 1) (by omega)
  have hcard1 : ((base ++ ext) ::
      (List.range folder.length).map (fun t => mkCand base ext (1 + t))).toFinset.card =
      folder.length + 1 := by
    rw [List.toFinset_card_of_nodup hnodup]
    simp
  have hcard2 := Finset.card_le_card hsub
  have hcard3 := List.toFinset_card_le folder
  omega

/-- C8: importing appends a `.json` extension to the filename when missing
before any duplicate check; a filename free in the folder is kept; a taken
filename gets the numeric disambiguator `_k` before the extension for the
least `k ≥ 1` whose candidate is free (every smaller one being taken); and
importing `prices.json` next to an existing `prices.json` yields
`prices_1.json`. -/
theorem claim_C8_import_naming :
    (∀ (folder : List CName) (srcName : CName),
       endsWithL (lowerL srcName) ".json".toList = false →
       safe_copy_filename folder srcName =
         dedupe_filename folder (srcName ++ ".json".toList)) ∧
    (∀ (folder : List CName) (filename : CName), filename ∉ folder →
       dedupe_filename folder filename = filename) ∧
    (∀ (folder : List CName) (filename : CName), filename ∈ folder →
       ∃ k, 1 ≤ k ∧
         dedupe_filename folder filename =
           mkCand (splitext filename).1 (splitext filename).2 k ∧
         mkCand (splitext filename).1 (splitext filename).2 k ∉ folder ∧
         ∀ j, 1 ≤ j → j < k →
           mkCand (splitext filename).1 (splitext filename).2 j ∈ folder) ∧
    safe_copy_filename ["prices.json".toList] "prices.json".toList =
      "prices_1.json".toList := by
  refine ⟨?_, ?_, ?_, by decide⟩
  · intro folder srcName h
    rw [safe_copy_filename, h]
    simp
  · intro folder filename hnot
    rw [dedupe_filename]
    simp only [dedupeLoop]
    rw [if_neg hnot]
  · intro folder filename hin
    have hex := exists_free_candidate folder (splitext filename).1 (splitext filename).2
    rw [splitext_append filename] at hex
    obtain ⟨T, hres, hfree, hmin⟩ :=
      dedupeLoop_spec folder (splitext filename).1 (splitext filename).2
        (folder.length + 1) 1 filename hex
    have hT0 : T ≠ 0 := by rintro rfl; exact hfree hin
    obtain ⟨s, rfl⟩ : ∃ s, T = s + 1 := ⟨T - 1, by omega⟩
    refine ⟨1 + s, by omega, ?_, ?_, ?_⟩
    · have hdef : dedupe_filename folder filename =
        dedupeLoop folder (splitext filename).1 (splitext filename).2
          (folder.length + 1) 1 filename := rfl
      rw [hdef, hres]
      rfl
    · exact hfree
    · intro j hj1 hjk
      obtain ⟨u, rfl⟩ : ∃ u, j = u + 1 := ⟨j - 1, by omega⟩
      rw [show u + 1 = 1 + u from Nat.add_comm u 1]
      exact hmin (u + 1) (by omega)

theorem claim_C8_witness :
    ∃ k, 1 ≤ k ∧
      dedupe_filename ["prices.json".toList] "prices.json".toList =
        mkCand (splitext "prices.json".toList).1 (splitext "prices.json".toList).2 k ∧
      mkCand (splitext "prices.json".toList).1 (splitext "prices.json".toList).2 k ∉
        ["prices.json".toList] ∧
      ∀ j, 1 ≤ j → j < k →
        mkCand (splitext "prices.json".toList).1 (splitext "prices.json".toList).2 j ∈
          ["prices.json".toList] :=
  claim_C8_import_naming.2.2.1 ["prices.json".toList] "prices.json".toList
    (List.Mem.head _)

-- ---------- Claim C7 ----------

lemma sinsert_perm (lt : α → α → Bool) (x : α) (l : List α) :
    (sinsert lt x l).Perm (x :: l) := by
  induction l with
  | nil => exact List.Perm.refl _
  | cons y ys ih =>
    rw [sinsert]
    split_ifs with h
    · exact (ih.cons y).trans (List.Perm.swap x y ys)
    · exact List.Perm.refl _

lemma stableSortBy_perm (lt : α → α → Bool) (l : List α) :
    (stableSortBy lt l).Perm l := by
  induction l with
  | nil => exact List.Perm.refl _
  | cons x xs ih => exact (sinsert_perm lt x _).trans (ih.cons x)

lemma pairwise_sinsert (lt : α → α → Bool) (x : α) :
    ∀ l : List α,
      (∀ a b, a ∈ l → b ∈ l → lt a b = false → lt b x = false → lt a x = false) →
      (∀ a b, lt a b = true → lt b a = false) →
      l.Pairwise (fun a b => lt b a = false) →
      (sinsert lt x l).Pairwise (fun a b => lt b a = false) := by
  intro l
  induction l with
  | nil =>
    intro _ _ _
    simp [sinsert]
  | cons y ys ih =>
    intro hneg hasymm hl
    rw [List.pairwise_cons] at hl
    obtain ⟨hy, hys⟩ := hl
    rw [sinsert]
    split_ifs with hlt
    · rw [List.pairwise_cons]
      refine ⟨?_, ih (fun a b ha hb => hneg a b (List.mem_cons_of_mem _ ha)
        (List.mem_cons_of_mem _ hb)) hasymm hys⟩
      intro b hb
      rcases List.mem_cons.mp ((sinsert_perm lt x ys).mem_iff.mp hb) with rfl | hb2
      · exact hasymm y b hlt
      · exact hy b hb2
    · rw [Bool.not_eq_true] at hlt
      rw [List.pairwise_cons]
      refine ⟨?_, List.pairwise_cons.mpr ⟨hy, hys⟩⟩
      intro b hb
      rcases List.mem_cons.mp hb with rfl | hb2
      · exact hlt
      · exact hneg b y (List.mem_cons_of_mem _ hb2) (List.mem_cons_self _ _)
          (hy b hb2) hlt

lemma pairwise_stableSortBy (lt : α → α → Bool) :
    ∀ l : List α,
      (∀ a b c, a ∈ l → b ∈ l → c ∈ l →
        lt a b = false → lt b c = false → lt a c = false) →
      (∀ a b, lt a b = true → lt b a = false) →
      (stableSortBy lt l).Pairwise (fun a b => lt b a = false) := by
  intro l
  induction l with
  | nil =>
    intro _ _
    simp [stableSortBy]
  | cons x xs ih =>
    intro hneg hasymm
    rw [stableSortBy]
    apply pairwise_sinsert lt x (stableSortBy lt xs)
    · intro a b ha hb h1 h2
      have ha2 : a ∈ xs := (stableSortBy_perm lt xs).mem_iff.mp ha
      have hb2 : b ∈ xs := (stableSortBy_perm lt xs).mem_iff.mp hb
      exact hneg a b x (List.mem_cons_of_mem _ ha2) (List.mem_cons_of_mem _ hb2)
        (List.mem_cons_self _ _) h1 h2
    · exact hasymm
    · exact ih (fun a b c ha hb hc => hneg a b c (List.mem_cons_of_mem _ ha)
        (List.mem_cons_of_mem _ hb) (List.mem_cons_of_mem _ hc)) hasymm

lemma filter_sinsert_pos (lt : α → α → Bool) (p : α → Bool) (x : α) :
    ∀ l : List α, p x = true → (∀ y, y ∈ l → p y = true → lt y x = false) →
      (sinsert lt x l).filter p = x :: l.filter p := by
  intro l
  induction l with
  | nil =>
    intro hx _
    simp [sinsert, List.filter_cons, hx]
  | cons y ys ih =>
    intro hx hcomp
    rw [sinsert]
    split_ifs with hlt
    · have hpy : p y = false := by
        rcases hpy : p y with _ | _
        · rfl
        · rw [hcomp y (List.mem_cons_self _ _) hpy] at hlt
          cases hlt
      rw [List.filter_cons, List.filter_cons]
      simp only [hpy]
      exact ih hx (fun z hz => hcomp z (List.mem_cons_of_mem _ hz))
    · rw [List.filter_cons, List.filter_cons]
      simp [hx]

lemma filter_sinsert_neg (lt : α → α → Bool) (p : α → Bool) (x : α) :
    ∀ l : List α, p x = false → (sinsert lt x l).filter p = l.filter p := by
  intro l
  induction l with
  | nil =>
    intro hx
    simp [sinsert, List.filter_cons, hx]
  | cons y ys ih =>
    intro hx
    rw [sinsert]
    split_ifs with hlt
    · rw [List.filter_cons, List.filter_cons, ih hx]
    · rw [List.filter_cons]
      simp [hx]

lemma filter_stableSortBy (lt : α → α → Bool) (p : α → Bool) :
    ∀ l : List α,
      (∀ a b, a ∈ l → b ∈ l → p a = true → p b = true → lt a b = false) →
      (stableSortBy lt l).filter p = l.filter p := by
  intro l
  induction l with
  | nil => intro _; rfl
  | cons x xs ih =>
    intro htie
    rw [stableSortBy]
    rcases hpx : p x with _ | _
    · rw [filter_sinsert_neg lt p x _ hpx,
        ih (fun a b ha hb => htie a b (List.mem_cons_of_mem _ ha)
          (List.mem_cons_of_mem _ hb)),
        List.filter_cons]
      simp [hpx]
    · rw [filter_sinsert_pos lt p x _ hpx ?comp,
        ih (fun a b ha hb => htie a b (List.mem_cons_of_mem _ ha)
          (List.mem_cons_of_mem _ hb)),
        List.filter_cons]
      · simp [hpx]
      case comp =>
        intro y hy hpy
        exact htie y x ((stableSortBy_perm lt xs).mem_iff.mp hy |>
          List.mem_cons_of_mem x) (List.mem_cons_self _ _) hpy hpx

lemma pyLt_asymm (a b : PyFloat) (h : pyLt a b = true) : pyLt b a = false := by
  cases a <;> cases b <;> simp_all [pyLt] <;> linarith

lemma pyLt_irrefl (a : PyFloat) : pyLt a a = false := by
  cases a <;> simp [pyLt]

lemma pyLt_negtrans (a b c : PyFloat) (ha : a ≠ .nan) (hb : b ≠ .nan)
    (hc : c ≠ .nan) (h1 : pyLt a b = false) (h2 : pyLt b c = false) :
    pyLt a c = false := by
  cases a <;> cases b <;> cases c <;> simp_all [pyLt] <;> linarith

lemma pyLt_inf_eq_false (k : PyFloat) (hk : k ≠ .nan) (h : pyLt k .inf = false) :
    k = .inf := by
  cases k <;> simp_all [pyLt]

/-- C7 (amended): for every list of displayed rows (whose keys in the
chosen column are not `nan`) and every denomination column, the sort
operation permutes the rows into numeric key order — ascending or
descending per the flag — stably (rows with equal keys keep their prior
relative order); an unparsable cell gets the key `inf`, so such rows land
at the end when ascending but at the beginning when descending (every row
after, resp. before, an unparsable one also has key `inf`). -/
theorem claim_C7_sort (col : Col) (rows : List Row)
    (hcol : col.isNumeric = true)
    (hnn : ∀ r ∈ rows, to_num (cellOf r col) ≠ PyFloat.nan) :
    ((sort_by col false rows).Perm rows ∧ (sort_by col true rows).Perm rows) ∧
    (sort_by col false rows).Pairwise
      (fun a b => pyLt (to_num (cellOf b col)) (to_num (cellOf a col)) = false) ∧
    (sort_by col true rows).Pairwise
      (fun a b => pyLt (to_num (cellOf a col)) (to_num (cellOf b col)) = false) ∧
    (∀ k : PyFloat,
       (sort_by col false rows).filter (fun r => decide (to_num (cellOf r col) = k)) =
         rows.filter (fun r => decide (to_num (cellOf r col) = k)) ∧
       (sort_by col true rows).filter (fun r => decide (to_num (cellOf r col) = k)) =
         rows.filter (fun r => decide (to_num (cellOf r col) = k))) ∧
    (∀ l1 a l2, sort_by col false rows = l1 ++ a :: l2 →
       parsePyFloat (cellOf a col) = none →
       ∀ b ∈ l2, to_num (cellOf b col) = PyFloat.inf) ∧
    (∀ l1 a l2, sort_by col true rows = l1 ++ a :: l2 →
       parsePyFloat (cellOf a col) = none →
       ∀ b ∈ l1, to_num (cellOf b col) = PyFloat.inf) := by
  have hasc : sort_by col false rows =
      stableSortBy (fun a b =>
        pyLt (to_num (cellOf a col)) (to_num (cellOf b col))) rows := by
    simp [sort_by, hcol]
  have hdesc : sort_by col true rows =
      stableSortBy (fun a b =>
        pyLt (to_num (cellOf b col)) (to_num (cellOf a col))) rows := by
    simp [sort_by, hcol]
  have hpermA : (sort_by col false rows).Perm rows := by
    rw [hasc]; exact stableSortBy_perm _ _
  have hpermD : (sort_by col true rows).Perm rows := by
    rw [hdesc]; exact stableSortBy_perm _ _
  have hPasc : (sort_by col false rows).Pairwise
      (fun a b => pyLt (to_num (cellOf b col)) (to_num (cellOf a col)) = false) := by
    rw [hasc]
    apply pairwise_stableSortBy
    · intro a b c ha hb hc h1 h2
      exact pyLt_negtrans _ _ _ (hnn a ha) (hnn b hb) (hnn c hc) h1 h2
    · exact fun a b h => pyLt_asymm _ _ h
  have hPdesc : (sort_by col true rows).Pairwise
      (fun a b => pyLt (to_num (cellOf a col)) (to_num (cellOf b col)) = false) := by
    rw [hdesc]
    apply pairwise_stableSortBy
    · intro a b c ha hb hc h1 h2
      exact pyLt_negtrans _ _ _ (hnn c hc) (hnn b hb) (hnn a ha) h2 h1
    · exact fun a b h => pyLt_asymm _ _ h
  refine ⟨⟨hpermA, hpermD⟩, hPasc, hPdesc, ?_, ?_, ?_⟩
  · intro k
    constructor
    · rw [hasc]
      apply filter_stableSortBy
      intro a b _ _ hpa hpb
      have hka := of_decide_eq_true hpa
      have hkb := of_decide_eq_true hpb
      show pyLt (to_num (cellOf a col)) (to_num (cellOf b col)) = false
      rw [hka, hkb]
      exact pyLt_irrefl k
    · rw [hdesc]
      apply filter_stableSortBy
      intro a b _ _ hpa hpb
      have hka := of_decide_eq_true hpa
      have hkb := of_decide_eq_true hpb
      show pyLt (to_num (cellOf b col)) (to_num (cellOf a col)) = false
      rw [hka, hkb]
      exact pyLt_irrefl k
  · intro l1 a l2 heq hpa b hb
    have hP := hPasc
    rw [heq] at hP
    obtain ⟨-, h2, -⟩ := List.pairwise_append.mp hP
    have hR := (List.pairwise_cons.mp h2).1 b hb
    have hka : to_num (cellOf a col) = PyFloat.inf := by simp [to_num, hpa]
    rw [hka] at hR
    have hbrows : b ∈ rows := by
      refine hpermA.mem_iff.mp ?_
      rw [heq]
      exact List.mem_append_right _ (List.mem_cons_of_mem _ hb)
    exact pyLt_inf_eq_false _ (hnn b hbrows) hR
  · intro l1 a l2 heq hpa b hb
    have hP := hPdesc
    rw [heq] at hP
    obtain ⟨-, -, h3⟩ := List.pairwise_append.mp hP
    have hR := h3 b hb a (List.mem_cons_self _ _)
    have hka : to_num (cellOf a col) = PyFloat.inf := by simp [to_num, hpa]
    rw [hka] at hR
    have hbrows : b ∈ rows := by
      refine hpermD.mem_iff.mp ?_
      rw [heq]
      exact List.mem_append_left _ hb
    exact pyLt_inf_eq_false _ (hnn b hbrows) hR

/-- A displayed row whose denomination cells are unparsable text. -/
def rowUnp : Row :=
  ⟨"A".toList, "x".toList, "x".toList, "x".toList, "x".toList, "x".toList⟩

/-- A displayed row whose denomination cells read `5`. -/
def rowFive : Row :=
  ⟨"B".toList, "5".toList, "5".toList, "5".toList, "5".toList, "5".toList⟩

/-- C7 as stated is false: sorting descending by the gp column keeps the
row with the unparsable cell (key `inf`) at the beginning, not the end. -/
theorem claim_C7_counterexample :
    parsePyFloat (cellOf rowUnp .gp) = none ∧
    parsePyFloat (cellOf rowFive .gp) = some (.finite 5) ∧
    sort_by .gp true [rowUnp, rowFive] = [rowUnp, rowFive] := by
  refine ⟨by decide, by decide, by decide⟩

theorem claim_C7_witness :
    (sort_by .gp false [mkRow "B".toList 5, mkRow "A".toList 5, mkRow "C".toList 3]).Perm
      [mkRow "B".toList 5, mkRow "A".toList 5, mkRow "C".toList 3] ∧
    sort_by .gp false [mkRow "B".toList 5, mkRow "A".toList 5, mkRow "C".toList 3] =
      [mkRow "C".toList 3, mkRow "B".toList 5, mkRow "A".toList 5] :=
  ⟨(claim_C7_sort .gp [mkRow "B".toList 5, mkRow "A".toList 5, mkRow "C".toList 3]
      rfl (by decide)).1.1, by decide⟩

-- ---------- Claim C6 ----------

lemma alookup_eq_none_of_not_mem_keys {β : Type} :
    ∀ (l : List (CName × β)) (n : CName), n ∉ l.map Prod.fst → alookup l n = none := by
  intro l
  induction l with
  | nil => intro n _; rfl
  | cons hd rest ih =>
    intro n hn
    simp only [List.map_cons, List.mem_cons] at hn
    push_neg at hn
    rw [alookup, if_neg (fun h => hn.1 h.symm)]
    exact ih n hn.2

lemma mem_keys_pyInsert {β : Type} :
    ∀ (l : List (CName × β)) (k : CName) (v : β) (a : CName),
      a ∈ (pyInsert l k v).map Prod.fst ↔ (a ∈ l.map Prod.fst ∨ a = k) := by
  intro l
  induction l with
  | nil =>
    intro k v a
    show a ∈ [k] ↔ a ∈ ([] : List CName) ∨ a = k
    rw [List.mem_singleton]
    simp
  | cons hd rest ih =>
    intro k v a
    obtain ⟨k', v'⟩ := hd
    by_cases h : k' = k
    · subst h
      simp only [pyInsert]
      rw [if_pos trivial]
      simp only [List.map_cons, List.mem_cons]
      tauto
    · simp only [pyInsert]
      rw [if_neg h]
      simp only [List.map_cons, List.mem_cons, ih]
      tauto

lemma nodupKeys_pyInsert {β : Type} :
    ∀ (l : List (CName × β)) (k : CName) (v : β),
      (l.map Prod.fst).Nodup → ((pyInsert l k v).map Prod.fst).Nodup := by
  intro l
  induction l with
  | nil => intro k v _; exact List.nodup_singleton k
  | cons hd rest ih =>
    intro k v hnd
    obtain ⟨k', v'⟩ := hd
    rw [List.map_cons, List.nodup_cons] at hnd
    by_cases h : k' = k
    · subst h
      simp only [pyInsert]
      rw [if_pos trivial, List.map_cons, List.nodup_cons]
      exact hnd
    · rw [pyInsert, if_neg h, List.map_cons, List.nodup_cons]
      refine ⟨?_, ih k v hnd.2⟩
      rw [mem_keys_pyInsert]
      rintro (hmem | rfl)
      · exact hnd.1 hmem
      · exact h rfl

lemma nodupKeys_cleanFold :
    ∀ (entries : List (Option CName × JValue)) (acc : Catalog),
      (acc.map Prod.fst).Nodup → ((entries.foldl cleanStep acc).map Prod.fst).Nodup := by
  intro entries
  induction entries with
  | nil => intro acc h; exact h
  | cons hd rest ih =>
    intro acc hacc
    rw [List.foldl_cons]
    refine ih _ ?_
    obtain ⟨k, v⟩ := hd
    rcases k with _ | s
    · exact hacc
    · rcases hv : tryFloat v with _ | p
      · simpa [cleanStep, hv] using hacc
      · simpa [cleanStep, hv] using nodupKeys_pyInsert acc (stripL s) p hacc

lemma load_ok_nodupKeys (rr : ReadResult) (data : Catalog)
    (h : load_prices_json rr = .ok data) : (data.map Prod.fst).Nodup := by
  cases rr with
  | noFile => simp [load_prices_json] at h
  | badJson => simp [load_prices_json] at h
  | parsed v =>
    simp only [load_prices_json, Except.ok.injEq] at h
    subst h
    cases v <;> simp <;> exact nodupKeys_cleanFold _ [] (by simp)

/-- The value of the last entry of `d` with key `n` (Python dict update
semantics for a possibly key-duplicating entry list). -/
def lastVal (d : Catalog) (n : CName) : Option PyFloat :=
  d.foldl (fun acc kv => if kv.1 = n then some kv.2 else acc) none

lemma lastVal_acc (n : CName) : ∀ (d : Catalog) (acc : Option PyFloat),
    d.foldl (fun a kv => if kv.1 = n then some kv.2 else a) acc =
      match lastVal d n with
      | some v => some v
      | none => acc := by
  intro d
  induction d with
  | nil => intro acc; simp [lastVal]
  | cons hd rest ih =>
    intro acc
    rw [List.foldl_cons, ih]
    have hR : lastVal (hd :: rest) n =
        match lastVal rest n with
        | some v => some v
        | none => if hd.1 = n then some hd.2 else none := by
      rw [lastVal, List.foldl_cons, ih]
    rw [hR]
    rcases h2 : lastVal rest n with _ | v
    · split_ifs <;> simp
    · simp

lemma lastVal_cons (hd : CName × PyFloat) (rest : Catalog) (n : CName) :
    lastVal (hd :: rest) n =
      match lastVal rest n with
      | some v => some v
      | none => if hd.1 = n then some hd.2 else none := by
  rw [lastVal, List.foldl_cons, lastVal_acc]

lemma alookup_mergeInto (n : CName) : ∀ (d m : Catalog),
    alookup (mergeInto m d) n =
      match lastVal d n with
      | some v => some v
      | none => alookup m n := by
  intro d
  induction d with
  | nil => intro m; simp [mergeInto, lastVal]
  | cons hd rest ih =>
    intro m
    show alookup (mergeInto (pyInsert m hd.1 hd.2) rest) n = _
    rw [ih, lastVal_cons, alookup_pyInsert]
    rcases h2 : lastVal rest n with _ | v
    · split_ifs <;> simp
    · simp

lemma lastVal_eq_alookup : ∀ (d : Catalog), (d.map Prod.fst).Nodup →
    ∀ n, lastVal d n = alookup d n := by
  intro d
  induction d with
  | nil => intro _ n; rfl
  | cons hd rest ih =>
    intro hnd n
    rw [List.map_cons, List.nodup_cons] at hnd
    rw [lastVal_cons, alookup]
    by_cases h : hd.1 = n
    · subst h
      have hnone : alookup rest hd.1 = none :=
        alookup_eq_none_of_not_mem_keys rest hd.1 hnd.1
      rw [ih hnd.2, hnone]
    · rw [ih hnd.2]
      rcases h2 : alookup rest n with _ | v <;> simp [h, h2]

lemma alookup_load_fold (fs : FileSys) (n : CName) :
    ∀ (paths : List CName) (m : Catalog),
      alookup (paths.foldl
        (fun merged p =>
          match load_prices_json (fs p) with
          | .ok data => mergeInto merged data
          | .error _ => merged) m) n =
        match specLastSource fs paths n with
        | some v => some v
        | none => alookup m n := by
  intro paths
  induction paths with
  | nil => intro m; simp [specLastSource]
  | cons p rest ih =>
    intro m
    rw [List.foldl_cons, ih]
    rcases hS : specLastSource fs rest n with _ | v
    · simp only [specLastSource, hS]
      rcases hload : load_prices_json (fs p) with e | data
      · simp [hload]
      · simp only [hload]
        rw [alookup_mergeInto, lastVal_eq_alookup data (load_ok_nodupKeys _ _ hload)]
    · simp [specLastSource, hS]

lemma pyInsert_append_of_not_mem {β : Type} :
    ∀ (l : List (CName × β)) (k : CName) (v : β),
      k ∉ l.map Prod.fst → pyInsert l k v = l ++ [(k, v)] := by
  intro l
  induction l with
  | nil => intro k v _; rfl
  | cons hd rest ih =>
    intro k v h
    simp only [List.map_cons, List.mem_cons] at h
    push_neg at h
    rw [pyInsert, if_neg (fun he => h.1 he.symm), ih k v h.2]
    rfl

lemma fileIndex_fold_eq :
    ∀ (paths : List CName) (idx : List (CName × CName)),
      (∀ p ∈ paths, displayName p ∉ idx.map Prod.fst) →
      (paths.map displayName).Nodup →
      paths.foldl (fun idx p => pyInsert idx (displayName p) p) idx =
        idx ++ paths.map (fun p => (displayName p, p)) := by
  intro paths
  induction paths with
  | nil => intro idx _ _; simp
  | cons p rest ih =>
    intro idx hdisj hnd
    rw [List.map_cons, List.nodup_cons] at hnd
    rw [List.foldl_cons,
      pyInsert_append_of_not_mem idx _ p (hdisj p (List.mem_cons_self _ _)),
      ih (idx ++ [(displayName p, p)]) ?_ hnd.2]
    · simp
    · intro q hq
      rw [List.map_append, List.mem_append]
      rintro (hin | hin)
      · exact hdisj q (List.mem_cons_of_mem _ hq) hin
      · simp only [List.map_cons, List.map_nil, List.mem_singleton] at hin
        exact hnd.1 (hin ▸ List.mem_map_of_mem displayName hq)

lemma load_items_all_eq (fs : FileSys) (folder : List CName)
    (hnd : ((list_json_files folder).map displayName).Nodup) :
    load_items_all fs folder = claimMergeAll fs folder := by
  rw [load_items_all, fileIndex,
    fileIndex_fold_eq (list_json_files folder) [] (by simp) hnd,
    List.nil_append, List.foldl_map]
  rfl

/-- C6 (amended): when every JSON file in the folder has a distinct display
name (basename without extension — the file-index key), selecting "all
sources" loads and merges every file in lexicographic filename order,
skipping individual load failures, and each item name receives the value
from the lexicographically last successfully-loading source defining it. -/
theorem claim_C6_merge_all (fs : FileSys) (folder : List CName)
    (hnd : ((list_json_files folder).map displayName).Nodup) :
    load_items_all fs folder = claimMergeAll fs folder ∧
    ∀ name, alookup (load_items_all fs folder) name =
      specLastSource fs (list_json_files folder) name := by
  refine ⟨load_items_all_eq fs folder hnd, ?_⟩
  intro name
  rw [load_items_all_eq fs folder hnd, claimMergeAll, alookup_load_fold]
  rcases h : specLastSource fs (list_json_files folder) name <;> simp [alookup]

/-- Two sources whose filenames differ only in extension case, with
disjoint item sets (used to refute C6 as stated). -/
def fs2 : FileSys := fun p =>
  if p = "a.JSON".toList then .parsed (.obj [(some "Sword".toList, .num 1)])
  else if p = "a.json".toList then .parsed (.obj [(some "Dagger".toList, .num 2)])
  else .noFile

/-- C6 as stated is false: `a.JSON` and `a.json` are both known sources
(both listed, in lexicographic order), so the claimed fold over every
source would contain `Sword`; but both collapse to the display name `a`
in the file index, only the later file is loaded, and `Sword` is absent
from the active catalog. -/
theorem claim_C6_counterexample :
    list_json_files ["a.JSON".toList, "a.json".toList] =
      ["a.JSON".toList, "a.json".toList] ∧
    alookup (claimMergeAll fs2 ["a.JSON".toList, "a.json".toList]) "Sword".toList =
      some (.finite 1) ∧
    alookup (load_items_all fs2 ["a.JSON".toList, "a.json".toList]) "Sword".toList =
      none := by
  refine ⟨by decide, by decide, by decide⟩

/-- Two well-behaved sources both defining `Sword` (for the C6 witness). -/
def fsW : FileSys := fun p =>
  if p = "a.json".toList then .parsed (.obj [(some "Sword".toList, .num 1)])
  else if p = "b.json".toList then .parsed (.obj [(some "Sword".toList, .num 2)])
  else .noFile

theorem claim_C6_witness :
    (load_items_all fsW ["a.json".toList, "b.json".toList] =
      claimMergeAll fsW ["a.json".toList, "b.json".toList] ∧
     ∀ name, alookup (load_items_all fsW ["a.json".toList, "b.json".toList]) name =
       specLastSource fsW (list_json_files ["a.json".toList, "b.json".toList]) name) ∧
    alookup (load_items_all fsW ["a.json".toList, "b.json".toList]) "Sword".toList =
      some (.finite 2) :=
  ⟨claim_C6_merge_all fsW ["a.json".toList, "b.json".toList] (by decide), by decide⟩

end
